import Mathlib

/-!
Verification of the workforce-scheduling model compilers of the
nextmv community-apps repository.

Two programs are modelled, faithfully to their Python sources:

* `shift-assignment-ortools/main.py` — the assignment conflict compiler
  (`solve`, `convert_input`): availability merging, rest-conflict pair
  enumeration, the eligibility mask and the rule lookup.
* `shift-planning-ortools/main.py` — the coverage-period decomposer
  (`get_concrete_shifts`, `get_demand_coverage_periods`).

Timestamps are modelled as integers (seconds); `datetime` arithmetic and
comparison on timezone-free timestamps is exactly the arithmetic and order
of those integers, and `datetime.timedelta(hours=h)` is `3600 * h` seconds.
-/

/-- Availability interval of a worker, a half-open time range
`[start_time, end_time)`.  Mirrors the availability entries of
`shift-assignment-ortools/main.py` after timestamp parsing. -/
structure Availability where
  start_time : Int
  end_time : Int
deriving DecidableEq

/-- Shift record of the shift-assignment problem after timestamp parsing:
`id`, `[start_time, end_time)`, required worker `count`, and an optional
`qualification` (the Python dict may lack the key). -/
structure AShift where
  id : String
  start_time : Int
  end_time : Int
  count : Int
  qualification : Option String
deriving DecidableEq

/-- Worker record of the shift-assignment problem: `availability` windows,
`preferences` (dict modelled as an association list), the referenced rule id
`rules`, and the optional `qualifications` list (the key may be absent). -/
structure Worker where
  id : String
  availability : List Availability
  preferences : List (String × Int)
  rules : String
  qualifications : Option (List String)
deriving DecidableEq

/-- Rule record: `min_shifts` and `max_shifts` may be absent before default
resolution; `min_rest_hours_between_shifts` is required by `solve`. -/
structure Rule where
  id : String
  min_shifts : Option Int
  max_shifts : Option Int
  min_rest_hours_between_shifts : Int
deriving DecidableEq

/-- Stable insertion of an availability interval into a list sorted by
`start_time`.  Together with `sortByStart` this models Python
`sorted(e["availability"], key=lambda x: x["start_time"])`, which is a
stable sort by the start time. -/
def insertByStart (x : Availability) : List Availability → List Availability
  | [] => [x]
  | y :: ys =>
    if x.start_time ≤ y.start_time then x :: y :: ys else y :: insertByStart x ys

/-- Stable sort of availability intervals by `start_time`, modelling
`sorted(..., key=lambda x: x["start_time"])` in `convert_input`. -/
def sortByStart : List Availability → List Availability
  | [] => []
  | x :: xs => insertByStart x (sortByStart xs)

/-- One step of the in-place merge loop of `convert_input`: the loop keeps a
cursor `i`; while `avail[i].end_time == avail[i+1].start_time` it absorbs
`avail[i+1]` into `avail[i]` (staying at `i`), otherwise it advances.
`mergeInto a l` is the loop run with `a` the interval currently at the
cursor and `l` the intervals after it. -/
def mergeInto (a : Availability) : List Availability → List Availability
  | [] => [a]
  | b :: rest =>
    if a.end_time = b.start_time then mergeInto ⟨a.start_time, b.end_time⟩ rest
    else a :: mergeInto b rest

/-- Adjacency-merge scan over a sorted availability list, modelling the
`while i < len(e["availability"]) - 1` loop of `convert_input`. -/
def mergeScan : List Availability → List Availability
  | [] => []
  | a :: rest => mergeInto a rest

/-- Full availability normalization of `convert_input`: sort by start time,
then merge exactly-adjacent neighbours in one scan. -/
def mergeAvailability (l : List Availability) : List Availability :=
  mergeScan (sortByStart l)

/-- Default shift handed to `List.getD`; every index access in `restPairs`
is within bounds, so this value is never actually read. -/
def defaultAShift : AShift := ⟨"", 0, 0, 0, none⟩

/-- Rest-conflict pair enumeration of `solve` for one worker, at index
level: the nested `for s1, shift1 in enumerate(shifts)` /
`for s2, shift2 in enumerate(shifts)` loops skip `s1 >= s2`, skip pairs
with `shift1.end_time + rest_time < shift2.start_time` or
`shift2.end_time + rest_time < shift1.start_time`, and emit the
mutual-exclusion constraint `x[e,s1] + x[e,s2] <= 1` for the rest.
`rest_time` is in seconds (`timedelta(hours=h)` is `3600 * h`). -/
def restPairs (shifts : List AShift) (rest_time : Int) : List (Nat × Nat) :=
  (List.range shifts.length).flatMap (fun s1 =>
    (List.range shifts.length).filterMap (fun s2 =>
      if s1 ≥ s2 then none
      else if (shifts.getD s1 defaultAShift).end_time + rest_time <
                (shifts.getD s2 defaultAShift).start_time ∨
              (shifts.getD s2 defaultAShift).end_time + rest_time <
                (shifts.getD s1 defaultAShift).start_time then none
      else some (s1, s2)))

/-- Rest-conflict constraints of `solve` over all workers: for each worker
`e` the pairs of `restPairs` with that worker's rest time
`timedelta(hours=rules_per_worker[e.id].min_rest_hours_between_shifts)`,
tagged with the worker id.  `restOf` models the
`rules_per_worker[e["id"]]["min_rest_hours_between_shifts"]` dict lookup. -/
def restConstraints (workers : List Worker) (shifts : List AShift)
    (restOf : String → Int) : List (String × Nat × Nat) :=
  workers.flatMap (fun e =>
    (restPairs shifts (3600 * restOf e.id)).map (fun ij => (e.id, ij.1, ij.2)))

/-- Availability test of `solve`: some availability interval of the worker
contains the shift (`a.start_time <= s.start_time and
a.end_time >= s.end_time`). -/
def availOk (e : Worker) (s : AShift) : Bool :=
  e.availability.any (fun a =>
    decide (a.start_time ≤ s.start_time) && decide (a.end_time ≥ s.end_time))

/-- Availability pass of `solve`: `SetBounds(0, 0)` is called exactly when
no availability interval of the worker contains the shift. -/
def availPassFix (e : Worker) (s : AShift) : Bool := !availOk e s

/-- Qualification pass of `solve`: shifts with an absent or empty
qualification are skipped; otherwise a worker without a `qualifications`
key, or without the required qualification in it, is fixed to 0. -/
def qualPassFix (e : Worker) (s : AShift) : Bool :=
  match s.qualification with
  | none => false
  | some q =>
    if q = "" then false
    else
      match e.qualifications with
      | none => true
      | some qs => !qs.contains q

/-- Final effect of the two `SetBounds(0, 0)` passes of `solve` on the
assignment variable of a (worker, shift) pair: the variable ends fixed to
zero exactly when at least one pass fixed it. -/
def fixedToZero (e : Worker) (s : AShift) : Bool :=
  availPassFix e s || qualPassFix e s

/-- Keys of the `x_assign` dict of `solve`: one binary decision variable is
created for every (worker, shift) pair, before any bound fixing. -/
def xAssignKeys (workers : List Worker) (shifts : List AShift) :
    List (String × String) :=
  workers.flatMap (fun e => shifts.map (fun s => (e.id, s.id)))

/-- Default resolution for rules in `convert_input`:
`r["min_shifts"] = r.get("min_shifts", 0)` and
`r["max_shifts"] = r.get("max_shifts", 1000)`. -/
def applyRuleDefaults (r : Rule) : Rule :=
  { r with
    min_shifts := some (r.min_shifts.getD 0)
    max_shifts := some (r.max_shifts.getD 1000) }

/-- Per-worker normalization of `convert_input`: the availability list is
sorted and adjacency-merged in place (the `preferences` default
`e.get("preferences", {})` is the identity on the association-list
model). -/
def convertWorker (e : Worker) : Worker :=
  { e with availability := mergeAvailability e.availability }

/-- Default rule handed to `List.getD`; it is only read behind a proof that
the filtered rule list has length one, so it is never actually used. -/
def defaultRule : Rule := ⟨"", none, none, 0⟩

/-- Rule lookup loop of `convert_input`: for each worker, the rules whose
id equals the worker's `rules` reference are collected; if their number is
not exactly one, `ValueError("Invalid rule for worker ...")` is raised,
aborting the conversion at the first offending worker. -/
def rulesPerWorker (rules : List Rule) : List Worker → Except String (List (String × Rule))
  | [] => .ok []
  | e :: rest =>
    let rule := rules.filter (fun r => r.id == e.rules)
    if rule.length ≠ 1 then .error ("Invalid rule for worker " ++ e.id)
    else
      match rulesPerWorker rules rest with
      | .error msg => .error msg
      | .ok m => .ok ((e.id, rule.getD 0 defaultRule) :: m)

/-- Input of the shift-assignment problem (after JSON parsing). -/
structure AInput where
  workers : List Worker
  shifts : List AShift
  rules : List Rule
deriving DecidableEq

/-- Model of `convert_input`: timestamps are already integers in this
embedding, rule and worker defaults are applied, availabilities merged, and
the per-worker rule dict is built — raising (returning `.error`) when a
worker references an id matching no rule or several rules. -/
def convertInput (input : AInput) :
    Except String (List Worker × List AShift × List (String × Rule)) :=
  let shifts := input.shifts
  let rules := input.rules.map applyRuleDefaults
  let workers := input.workers.map convertWorker
  match rulesPerWorker rules workers with
  | .error msg => .error msg
  | .ok m => .ok (workers, shifts, m)

/-- Model-building stage of `solve`: `convert_input` runs first; only on
success are the decision variables (the `x_assign` keys) created.  On a
conversion error no variable of the model exists. -/
def modelOf (input : AInput) : Option (List (String × String)) :=
  match convertInput input with
  | .error _ => none
  | .ok (workers, shifts, _) => some (xAssignKeys workers shifts)

/-- Time-slot occurrence of a shift template in the shift-planning problem
(after `convert_data` timestamp parsing): `min_workers`, `max_workers` and
`cost` keys may be absent. -/
structure TimeSlot where
  id : String
  start_time : Int
  end_time : Int
  min_workers : Option Int
  max_workers : Option Int
  cost : Option Int
deriving DecidableEq

/-- Shift template of the shift-planning problem: template-level
`min_workers`, `max_workers` and `qualification` keys may be absent; `cost`
is required at template level whenever a time slot does not override it
(`shift["cost"]` is accessed unguarded in `get_concrete_shifts`). -/
structure ShiftTemplate where
  id : String
  times : List TimeSlot
  min_workers : Option Int
  max_workers : Option Int
  cost : Int
  qualification : Option String
deriving DecidableEq

/-- Concrete shift produced by `get_concrete_shifts`: all defaults are
resolved (time-slot value, else template value, else global default). -/
structure ConcreteShift where
  id : String
  shift_id : String
  time_id : String
  start_time : Int
  end_time : Int
  min_workers : Int
  max_workers : Int
  cost : Int
  qualification : String
deriving DecidableEq

/-- Demand record of the shift-planning problem after `convert_data`
(timestamps parsed, `qualification` defaulted to `""`). -/
structure Demand where
  start_time : Int
  end_time : Int
  count : Int
  qualification : String
deriving DecidableEq

/-- Coverage period produced by `get_demand_coverage_periods` (class
`UniqueQualificationDemandPeriod` in the source): an atomic time slice of
one qualification group with the shifts covering it and the demands
contributing to it. -/
structure UniqueQualificationDemandPeriod where
  start_time : Int
  end_time : Int
  qualification : String
  covering_shifts : List ConcreteShift
  demands : List Demand
deriving DecidableEq

/-- Shift template expander `get_concrete_shifts`: one concrete shift per
(template, time slot) pair, in template order then slot order, with id
`f"{shift['id']}_{time['id']}"` and the field-by-field default chain of the
source (slot value, else template value, else 0 / -1 / template cost /
`""`). -/
def getConcreteShifts (shifts : List ShiftTemplate) : List ConcreteShift :=
  shifts.flatMap (fun shift => shift.times.map (fun time =>
    { id := shift.id ++ "_" ++ time.id
      shift_id := shift.id
      time_id := time.id
      start_time := time.start_time
      end_time := time.end_time
      min_workers := time.min_workers.getD (shift.min_workers.getD 0)
      max_workers := time.max_workers.getD (shift.max_workers.getD (-1))
      cost := time.cost.getD shift.cost
      qualification := shift.qualification.getD "" }))

/-- Demand grouping of `get_demand_coverage_periods`:
`demands_per_qualification[q]` holds the demands whose qualification equals
`q`, in input order. -/
def demandsFor (q : String) (demands : List Demand) : List Demand :=
  demands.filter (fun d => d.qualification == q)

/-- Shift grouping of `get_demand_coverage_periods`:
`shifts_per_qualification[q] = [s for s in concrete_shifts if
q == s["qualification"]]`. -/
def shiftsFor (q : String) (concrete_shifts : List ConcreteShift) :
    List ConcreteShift :=
  concrete_shifts.filter (fun s => q == s.qualification)

/-- Ordered insertion without duplicates; folding it over a list of times
models Python `sorted(set(times))`: a strictly increasing list with the
same membership. -/
def insertStrict (x : Int) : List Int → List Int
  | [] => [x]
  | y :: ys =>
    if x < y then x :: y :: ys
    else if x = y then y :: ys
    else y :: insertStrict x ys

/-- Sorted de-duplication of a list of times, modelling
`sorted(set(times))` in `get_demand_coverage_periods`. -/
def sortedDedup (l : List Int) : List Int := l.foldr insertStrict []

/-- Boundary-point timeline of `get_demand_coverage_periods` for one
qualification group: all `start_time` and `end_time` values of the group's
demands and of the group's shifts, sorted and de-duplicated. -/
def timesFor (q : String) (concrete_shifts : List ConcreteShift)
    (demands : List Demand) : List Int :=
  sortedDedup
    ((demandsFor q demands).flatMap (fun d => [d.start_time, d.end_time]) ++
     (shiftsFor q concrete_shifts).flatMap (fun s => [s.start_time, s.end_time]))

/-- Covering-shift collection of `get_demand_coverage_periods` for one
candidate period: the group's shifts whose interval fully contains
`[start, stop)`. -/
def coveringShifts (q : String) (concrete_shifts : List ConcreteShift)
    (start stop : Int) : List ConcreteShift :=
  (shiftsFor q concrete_shifts).filter (fun s =>
    decide (s.start_time ≤ start) && decide (s.end_time ≥ stop))

/-- Contributing-demand collection of `get_demand_coverage_periods` for one
candidate period: the group's demands whose interval fully contains
`[start, stop)`. -/
def contributingDemands (q : String) (demands : List Demand)
    (start stop : Int) : List Demand :=
  (demandsFor q demands).filter (fun d =>
    decide (d.start_time ≤ start) && decide (d.end_time ≥ stop))

/-- Per-qualification body of `get_demand_coverage_periods` (second half):
for every adjacent pair `times[i], times[i+1]` of the timeline, collect the
covering shifts and contributing demands by full containment; candidates
whose contributing-demand list is empty are dropped (`if not
any(contributing_demands): continue` — demand dicts are non-empty, so
`any` is the emptiness test), the rest become periods. -/
def periodsFor (q : String) (concrete_shifts : List ConcreteShift)
    (demands : List Demand) : List UniqueQualificationDemandPeriod :=
  let times := timesFor q concrete_shifts demands
  (List.range (times.length - 1)).filterMap (fun i =>
    if (contributingDemands q demands (times.getD i 0)
          (times.getD (i + 1) 0)).isEmpty then none
    else some ⟨times.getD i 0, times.getD (i + 1) 0, q,
      coveringShifts q concrete_shifts (times.getD i 0) (times.getD (i + 1) 0),
      contributingDemands q demands (times.getD i 0) (times.getD (i + 1) 0)⟩)

/-- Iteration order of the `demands_per_qualification` dict: qualification
strings in order of first appearance among the demands (Python dict keys
are in insertion order). -/
def qualKeys (demands : List Demand) : List String :=
  demands.foldl (fun ks d =>
    if d.qualification ∈ ks then ks else ks ++ [d.qualification]) []

/-- Coverage-period decomposer `get_demand_coverage_periods`: the
concatenation, over the qualification groups in dict order, of the groups'
retained periods. -/
def getDemandCoveragePeriods (concrete_shifts : List ConcreteShift)
    (demands : List Demand) : List UniqueQualificationDemandPeriod :=
  (qualKeys demands).flatMap (fun q => periodsFor q concrete_shifts demands)

lemma insertByStart_head (x : Availability) (l : List Availability) :
    (insertByStart x l).head? = some x ∨ (insertByStart x l).head? = l.head? := by
  cases l with
  | nil => left; rfl
  | cons y ys =>
    by_cases h : x.start_time ≤ y.start_time
    · left; simp [insertByStart, h]
    · right; simp [insertByStart, h]

lemma insertByStart_chain' (x : Availability) (l : List Availability)
    (h : List.Chain' (fun a b => a.start_time ≤ b.start_time) l) :
    List.Chain' (fun a b => a.start_time ≤ b.start_time) (insertByStart x l) := by
  induction l with
  | nil => simp [insertByStart]
  | cons y ys ih =>
    rw [List.chain'_cons'] at h
    by_cases hxy : x.start_time ≤ y.start_time
    · simp only [insertByStart, if_pos hxy]
      rw [List.chain'_cons']
      refine ⟨?_, ?_⟩
      · intro z hz
        simp only [List.head?_cons, Option.mem_def, Option.some.injEq] at hz
        subst hz; exact hxy
      · rw [List.chain'_cons']; exact h
    · simp only [insertByStart, if_neg hxy]
      rw [List.chain'_cons']
      refine ⟨?_, ih h.2⟩
      intro z hz
      rcases insertByStart_head x ys with hh | hh
      · rw [hh] at hz
        simp only [Option.mem_def, Option.some.injEq] at hz
        subst hz
        exact le_of_lt (lt_of_not_le hxy)
      · rw [hh] at hz
        exact h.1 z hz

lemma sortByStart_chain' (l : List Availability) :
    List.Chain' (fun a b => a.start_time ≤ b.start_time) (sortByStart l) := by
  induction l with
  | nil => simp [sortByStart]
  | cons x xs ih => exact insertByStart_chain' x _ ih

lemma sortByStart_eq_self (l : List Availability)
    (h : List.Chain' (fun a b => a.start_time ≤ b.start_time) l) :
    sortByStart l = l := by
  induction l with
  | nil => rfl
  | cons x xs ih =>
    rw [List.chain'_cons'] at h
    have hxs : sortByStart xs = xs := ih h.2
    show insertByStart x (sortByStart xs) = x :: xs
    rw [hxs]
    cases xs with
    | nil => rfl
    | cons y ys =>
      have hxy : x.start_time ≤ y.start_time := h.1 y (by simp)
      simp [insertByStart, hxy]

lemma mergeInto_head_start (a : Availability) (l : List Availability) :
    ∃ e tl, mergeInto a l = ⟨a.start_time, e⟩ :: tl := by
  induction l generalizing a with
  | nil => exact ⟨a.end_time, [], rfl⟩
  | cons b rest ih =>
    by_cases h : a.end_time = b.start_time
    · obtain ⟨e, tl, he⟩ := ih ⟨a.start_time, b.end_time⟩
      exact ⟨e, tl, by simp [mergeInto, h, he]⟩
    · exact ⟨a.end_time, mergeInto b rest, by simp [mergeInto, h]⟩

lemma mergeInto_chain'_le (a : Availability) (l : List Availability)
    (h : List.Chain' (fun u v => u.start_time ≤ v.start_time) (a :: l)) :
    List.Chain' (fun u v => u.start_time ≤ v.start_time) (mergeInto a l) := by
  induction l generalizing a with
  | nil => simp [mergeInto]
  | cons b rest ih =>
    rw [List.chain'_cons] at h
    by_cases hab : a.end_time = b.start_time
    · simp only [mergeInto, if_pos hab]
      apply ih
      rw [List.chain'_cons'] at h ⊢
      refine ⟨?_, h.2.2⟩
      intro z hz
      exact le_trans h.1 (h.2.1 z hz)
    · simp only [mergeInto, if_neg hab]
      rw [List.chain'_cons']
      refine ⟨?_, ih b h.2⟩
      intro z hz
      obtain ⟨e, tl, he⟩ := mergeInto_head_start b rest
      rw [he] at hz
      simp only [List.head?_cons, Option.mem_def, Option.some.injEq] at hz
      subst hz
      exact h.1

lemma mergeInto_chain'_ne (a : Availability) (l : List Availability) :
    List.Chain' (fun u v => u.end_time ≠ v.start_time) (mergeInto a l) := by
  induction l generalizing a with
  | nil => simp [mergeInto]
  | cons b rest ih =>
    by_cases hab : a.end_time = b.start_time
    · simp only [mergeInto, if_pos hab]
      exact ih _
    · simp only [mergeInto, if_neg hab]
      rw [List.chain'_cons']
      refine ⟨?_, ih b⟩
      intro z hz
      obtain ⟨e, tl, he⟩ := mergeInto_head_start b rest
      rw [he] at hz
      simp only [List.head?_cons, Option.mem_def, Option.some.injEq] at hz
      subst hz
      exact hab

lemma mergeInto_no_adjacent (a : Availability) (l : List Availability)
    (h : List.Chain' (fun u v => u.end_time ≠ v.start_time) (a :: l)) :
    mergeInto a l = a :: l := by
  induction l generalizing a with
  | nil => rfl
  | cons b rest ih =>
    rw [List.chain'_cons] at h
    simp only [mergeInto, if_neg h.1]
    rw [ih b h.2]

lemma mergeScan_chain'_le (l : List Availability)
    (h : List.Chain' (fun u v => u.start_time ≤ v.start_time) l) :
    List.Chain' (fun u v => u.start_time ≤ v.start_time) (mergeScan l) := by
  cases l with
  | nil => simp [mergeScan]
  | cons a rest => exact mergeInto_chain'_le a rest h

lemma mergeScan_chain'_ne (l : List Availability) :
    List.Chain' (fun u v => u.end_time ≠ v.start_time) (mergeScan l) := by
  cases l with
  | nil => simp [mergeScan]
  | cons a rest => exact mergeInto_chain'_ne a rest

lemma mergeScan_no_adjacent (l : List Availability)
    (h : List.Chain' (fun u v => u.end_time ≠ v.start_time) l) :
    mergeScan l = l := by
  cases l with
  | nil => rfl
  | cons a rest => exact mergeInto_no_adjacent a rest h

lemma mergeAvailability_chain'_le (l : List Availability) :
    List.Chain' (fun u v => u.start_time ≤ v.start_time) (mergeAvailability l) :=
  mergeScan_chain'_le _ (sortByStart_chain' l)

lemma mergeAvailability_chain'_ne (l : List Availability) :
    List.Chain' (fun u v => u.end_time ≠ v.start_time) (mergeAvailability l) :=
  mergeScan_chain'_ne _

/-- C7: for every finite list of availability intervals, the interval
merger of `convert_input` (sort by start, then adjacency-merge scan) is
idempotent: applying it to its own output returns that output unchanged. -/
theorem claim_C7 : ∀ l : List Availability,
    mergeAvailability (mergeAvailability l) = mergeAvailability l := by
  intro l
  show mergeScan (sortByStart (mergeAvailability l)) = mergeAvailability l
  rw [sortByStart_eq_self _ (mergeAvailability_chain'_le l)]
  exact mergeScan_no_adjacent _ (mergeAvailability_chain'_ne l)

/-- C5 counterexample: on the input `[0,3), [1,5), [3,4)` the merger of
`convert_input` returns the input unchanged, so its output contains two
truly overlapping intervals (`[0,3)` and `[1,5)` share the point 1) and
two exactly adjacent intervals (`[0,3)` and `[3,4)`), refuting both the
mutual-non-overlap and the no-two-adjacent parts of the claim. -/
theorem claim_C5_counterexample :
    mergeAvailability [⟨0, 3⟩, ⟨1, 5⟩, ⟨3, 4⟩] = [⟨0, 3⟩, ⟨1, 5⟩, ⟨3, 4⟩] ∧
    ¬ List.Pairwise (fun a b : Availability =>
        ∀ x : Int, ¬(a.start_time ≤ x ∧ x < a.end_time ∧
                     b.start_time ≤ x ∧ x < b.end_time))
      (mergeAvailability [⟨0, 3⟩, ⟨1, 5⟩, ⟨3, 4⟩]) ∧
    ¬ List.Pairwise (fun a b : Availability => a.end_time ≠ b.start_time)
      (mergeAvailability [⟨0, 3⟩, ⟨1, 5⟩, ⟨3, 4⟩]) := by
  have h : mergeAvailability [⟨0, 3⟩, ⟨1, 5⟩, ⟨3, 4⟩] =
      [⟨0, 3⟩, ⟨1, 5⟩, ⟨3, 4⟩] := by decide
  refine ⟨h, ?_, ?_⟩
  · rw [h]
    intro hp
    have h01 := (List.pairwise_cons.mp hp).1 ⟨1, 5⟩ (by simp)
    exact h01 1 (by constructor <;> simp)
  · rw [h]
    intro hp
    have h02 := (List.pairwise_cons.mp hp).1 ⟨3, 4⟩ (by simp)
    exact h02 rfl

/-- C5 amended: the merger's output is sorted by start time, and no two
CONSECUTIVE intervals of the output are exactly adjacent (the scan only
compares neighbours, so overlapping intervals survive and a non-adjacent
earlier interval may still abut a later one). -/
theorem claim_C5_amended : ∀ l : List Availability,
    List.Chain' (fun a b => a.start_time ≤ b.start_time) (mergeAvailability l) ∧
    List.Chain' (fun a b => a.end_time ≠ b.start_time) (mergeAvailability l) :=
  fun l => ⟨mergeAvailability_chain'_le l, mergeAvailability_chain'_ne l⟩

/-- C6: the merger sorts by start ascending; in the scan an interval is
absorbed into its successor exactly when its end equals the successor's
start; a list with no exactly-adjacent consecutive pair (gaps or true
overlaps everywhere) passes through the scan unchanged; availability
`[08:00,12:00)` and `[12:00,16:00)` (seconds 28800, 43200, 57600) merges to
one interval, while `[08:00,12:00)` and `[12:30,16:00)` (45000 = 12:30)
stays two intervals. -/
theorem claim_C6 :
    mergeAvailability [⟨28800, 43200⟩, ⟨43200, 57600⟩] = [⟨28800, 57600⟩] ∧
    mergeAvailability [⟨28800, 43200⟩, ⟨45000, 57600⟩] =
      [⟨28800, 43200⟩, ⟨45000, 57600⟩] ∧
    (∀ l : List Availability,
      List.Chain' (fun a b => a.start_time ≤ b.start_time) (sortByStart l)) ∧
    (∀ l : List Availability,
      List.Chain' (fun a b => a.end_time ≠ b.start_time) l → mergeScan l = l) ∧
    (∀ (a b : Availability) (rest : List Availability),
      a.end_time = b.start_time →
        mergeInto a (b :: rest) = mergeInto ⟨a.start_time, b.end_time⟩ rest) ∧
    (∀ (a b : Availability) (rest : List Availability),
      a.end_time ≠ b.start_time →
        mergeInto a (b :: rest) = a :: mergeInto b rest) := by
  refine ⟨by decide, by decide, sortByStart_chain', mergeScan_no_adjacent, ?_, ?_⟩
  · intro a b rest h
    simp [mergeInto, h]
  · intro a b rest h
    simp [mergeInto, h]

/-- C6 witness: the universally quantified, hypothesis-carrying parts of
`claim_C6` applied at concrete inputs: a gapped list passes the scan
unchanged, an adjacent pair is absorbed, a non-adjacent pair is kept. -/
theorem claim_C6_witness :
    mergeScan [⟨0, 1⟩, ⟨2, 3⟩] = [⟨0, 1⟩, ⟨2, 3⟩] ∧
    mergeInto ⟨0, 1⟩ [⟨1, 2⟩] = mergeInto ⟨0, 2⟩ [] ∧
    mergeInto ⟨0, 1⟩ [⟨2, 3⟩] = ⟨0, 1⟩ :: mergeInto ⟨2, 3⟩ [] := by
  refine ⟨claim_C6.2.2.2.1 _ ?_, claim_C6.2.2.2.2.1 ⟨0, 1⟩ ⟨1, 2⟩ [] ?_,
    claim_C6.2.2.2.2.2 ⟨0, 1⟩ ⟨2, 3⟩ [] ?_⟩
  · rw [List.chain'_cons]
    exact ⟨by decide, List.chain'_singleton _⟩
  · decide
  · decide

/-- C2 counterexample: for shifts `A=[09:00,13:00)`, `B=[14:00,18:00)`
(seconds since midnight) and a one-hour rest requirement, the gap equals
the rest exactly, yet `solve` DOES emit the mutual-exclusion pair: the skip
test `shift1.end + rest < shift2.start` is strict, and
`13:00 + 1h < 14:00` is false. -/
theorem claim_C2_counterexample :
    restPairs [⟨"A", 32400, 46800, 1, none⟩, ⟨"B", 50400, 64800, 1, none⟩]
      (3600 * 1) = [(0, 1)] := by decide

/-- C2 amended: with `A=[09:00,13:00)`, `B=[14:00,18:00)` the conflict pair
for (A, B) is emitted both for a 2-hour rest requirement and for a 1-hour
rest requirement; a gap exactly equal to the rest still conflicts because
the skip conditions use strict `<`. -/
theorem claim_C2_amended :
    restPairs [⟨"A", 32400, 46800, 1, none⟩, ⟨"B", 50400, 64800, 1, none⟩]
      (3600 * 2) = [(0, 1)] ∧
    restPairs [⟨"A", 32400, 46800, 1, none⟩, ⟨"B", 50400, 64800, 1, none⟩]
      (3600 * 1) = [(0, 1)] := by
  constructor <;> decide

/-- C3: the assignment variable of a (worker, shift) pair ends fixed to
`[0, 0]` exactly when no merged availability interval of the worker fully
contains the shift, or the shift carries a non-empty qualification that is
not among the worker's qualifications (an absent `qualifications` key being
the empty set); the fixing is independent of the preference weights; and
one `x_assign` variable exists for every (worker, shift) pair, so
ineligible pairs are fixed rather than omitted. -/
theorem claim_C3 : ∀ (e : Worker) (s : AShift),
    (fixedToZero (convertWorker e) s = true ↔
      (¬ ∃ a ∈ mergeAvailability e.availability,
          a.start_time ≤ s.start_time ∧ s.end_time ≤ a.end_time) ∨
      (∃ q, s.qualification = some q ∧ q ≠ "" ∧
        q ∉ e.qualifications.getD [])) ∧
    (∀ p : List (String × Int),
      fixedToZero { e with preferences := p } s = fixedToZero e s) ∧
    (∀ (workers : List Worker) (shifts : List AShift) (eid sid : String),
      (eid, sid) ∈ xAssignKeys workers shifts ↔
        (∃ w ∈ workers, w.id = eid) ∧ (∃ sh ∈ shifts, sh.id = sid)) := by
  intro e s
  refine ⟨?_, ?_, ?_⟩
  · have h1 : availPassFix (convertWorker e) s = true ↔
        ¬ ∃ a ∈ mergeAvailability e.availability,
          a.start_time ≤ s.start_time ∧ s.end_time ≤ a.end_time := by
      simp [availPassFix, availOk, convertWorker, ge_iff_le]
    have h2 : qualPassFix (convertWorker e) s = true ↔
        ∃ q, s.qualification = some q ∧ q ≠ "" ∧
          q ∉ e.qualifications.getD [] := by
      cases hq : s.qualification with
      | none => simp [qualPassFix, hq]
      | some q =>
        by_cases hqe : q = ""
        · subst hqe
          simp [qualPassFix, hq]
        · cases he : e.qualifications with
          | none => simp [qualPassFix, convertWorker, hq, hqe, he]
          | some qs => simp [qualPassFix, convertWorker, hq, hqe, he]
    rw [fixedToZero, Bool.or_eq_true, h1, h2]
  · intro p
    rfl
  · intro workers shifts eid sid
    simp only [xAssignKeys, List.mem_flatMap, List.mem_map, Prod.mk.injEq]
    constructor
    · rintro ⟨w, hw, sh, hsh, hid, hsid⟩
      exact ⟨⟨w, hw, hid⟩, ⟨sh, hsh, hsid⟩⟩
    · rintro ⟨⟨w, hw, hid⟩, ⟨sh, hsh, hsid⟩⟩
      exact ⟨w, hw, sh, hsh, hid, hsid⟩

lemma restPairs_inner_eq {shifts : List AShift} {rt : Int} {s1 s2 : Nat}
    {p : Nat × Nat}
    (h : (if s1 ≥ s2 then none
      else if (shifts.getD s1 defaultAShift).end_time + rt <
                (shifts.getD s2 defaultAShift).start_time ∨
              (shifts.getD s2 defaultAShift).end_time + rt <
                (shifts.getD s1 defaultAShift).start_time then none
      else some (s1, s2)) = some p) :
    p = (s1, s2) ∧ s1 < s2 ∧
      ¬((shifts.getD s1 defaultAShift).end_time + rt <
          (shifts.getD s2 defaultAShift).start_time) ∧
      ¬((shifts.getD s2 defaultAShift).end_time + rt <
          (shifts.getD s1 defaultAShift).start_time) := by
  split_ifs at h with h1 h2
  have hp := Option.some.inj h
  rcases not_or.mp h2 with ⟨hc1, hc2⟩
  exact ⟨hp.symm, not_le.mp h1, hc1, hc2⟩

lemma mem_restPairs {shifts : List AShift} {rt : Int} {i j : Nat} :
    (i, j) ∈ restPairs shifts rt ↔
      i < j ∧ j < shifts.length ∧
      ¬((shifts.getD i defaultAShift).end_time + rt <
          (shifts.getD j defaultAShift).start_time) ∧
      ¬((shifts.getD j defaultAShift).end_time + rt <
          (shifts.getD i defaultAShift).start_time) := by
  rw [restPairs, List.mem_flatMap]
  constructor
  · rintro ⟨s1, hs1, hmem⟩
    rw [List.mem_filterMap] at hmem
    rcases hmem with ⟨s2, hs2, hf⟩
    rcases restPairs_inner_eq hf with ⟨hp, hlt, hc1, hc2⟩
    simp only [Prod.mk.injEq] at hp
    obtain ⟨rfl, rfl⟩ := hp
    exact ⟨hlt, List.mem_range.mp hs2, hc1, hc2⟩
  · rintro ⟨hij, hj, hc1, hc2⟩
    refine ⟨i, List.mem_range.mpr (lt_trans hij hj), ?_⟩
    rw [List.mem_filterMap]
    refine ⟨j, List.mem_range.mpr hj, ?_⟩
    rw [if_neg (by omega), if_neg (by tauto)]

/-- C1: for every worker and pair of shift indices `i < j`, the
mutual-exclusion constraint `x[e,i] + x[e,j] <= 1` is emitted if and only
if both skip tests `shifts[i].end + rest < shifts[j].start` and
`shifts[j].end + rest < shifts[i].start` are false (with `rest` the
worker's rule's minimum rest in seconds); the emitted pair list has no
duplicates and never contains a pair together with its reverse, so each
unordered pair yields at most one constraint per worker; and a constraint
of `restConstraints` is tagged with a worker id exactly when a worker with
that id exists and the pair is emitted for that worker's rest time. -/
theorem claim_C1 : ∀ (shifts : List AShift) (rt : Int),
    (∀ i j : Nat, ((i, j) ∈ restPairs shifts rt ↔
      i < j ∧ j < shifts.length ∧
      ¬((shifts.getD i defaultAShift).end_time + rt <
          (shifts.getD j defaultAShift).start_time) ∧
      ¬((shifts.getD j defaultAShift).end_time + rt <
          (shifts.getD i defaultAShift).start_time))) ∧
    (restPairs shifts rt).Nodup ∧
    (∀ i j : Nat, (i, j) ∈ restPairs shifts rt →
      (j, i) ∉ restPairs shifts rt) ∧
    (∀ (workers : List Worker) (restOf : String → Int) (eid : String)
        (i j : Nat),
      (eid, i, j) ∈ restConstraints workers shifts restOf ↔
        (∃ e ∈ workers, e.id = eid) ∧
        (i, j) ∈ restPairs shifts (3600 * restOf eid)) := by
  intro shifts rt
  refine ⟨fun i j => mem_restPairs, ?_, ?_, ?_⟩
  · rw [restPairs, List.nodup_flatMap]
    constructor
    · intro s1 _
      apply List.Nodup.filterMap ?_ (List.nodup_range _)
      intro a b p hpa hpb
      rw [Option.mem_def] at hpa hpb
      have ha := (restPairs_inner_eq hpa).1
      have hb := (restPairs_inner_eq hpb).1
      rw [ha] at hb
      simp only [Prod.mk.injEq] at hb
      exact hb.2
    · apply (List.pairwise_lt_range _).imp
      intro a b hab p hpa hpb
      rw [List.mem_filterMap] at hpa hpb
      rcases hpa with ⟨x, _, hx⟩
      rcases hpb with ⟨y, _, hy⟩
      have h1 := (restPairs_inner_eq hx).1
      have h2 := (restPairs_inner_eq hy).1
      rw [h1] at h2
      simp only [Prod.mk.injEq] at h2
      exact absurd h2.1 (Nat.ne_of_lt hab)
  · intro i j hij hji
    have h1 := (mem_restPairs.mp hij).1
    have h2 := (mem_restPairs.mp hji).1
    omega
  · intro workers restOf eid i j
    rw [restConstraints, List.mem_flatMap]
    constructor
    · rintro ⟨e, he, hmem⟩
      rw [List.mem_map] at hmem
      rcases hmem with ⟨⟨i', j'⟩, hij, heq⟩
      simp only [Prod.mk.injEq] at heq
      obtain ⟨hid, h1, h2⟩ := heq
      subst hid
      subst h1
      subst h2
      exact ⟨⟨e, he, rfl⟩, hij⟩
    · rintro ⟨⟨e, he, hid⟩, hmem⟩
      subst hid
      refine ⟨e, he, ?_⟩
      rw [List.mem_map]
      exact ⟨(i, j), hmem, rfl⟩

lemma rulesPerWorker_error (rules : List Rule) :
    ∀ ws : List Worker,
    (∃ e ∈ ws, (rules.filter (fun r => r.id == e.rules)).length ≠ 1) →
    ∃ msg, rulesPerWorker rules ws = .error msg := by
  intro ws
  induction ws with
  | nil => rintro ⟨e, he, _⟩; exact absurd he (List.not_mem_nil e)
  | cons e rest ih =>
    rintro ⟨e', he', hlen⟩
    by_cases hl : (rules.filter (fun r => r.id == e.rules)).length ≠ 1
    · exact ⟨"Invalid rule for worker " ++ e.id, by simp [rulesPerWorker, hl]⟩
    · have he'' : e' ∈ rest := by
        rcases List.mem_cons.mp he' with rfl | hr
        · exact absurd hlen hl
        · exact hr
      obtain ⟨msg, herr⟩ := ih ⟨e', he'', hlen⟩
      exact ⟨msg, by simp [rulesPerWorker, hl, herr]⟩

lemma filter_rules_map_length (rules : List Rule) (s : String) :
    ((rules.map applyRuleDefaults).filter (fun r => r.id == s)).length =
    (rules.filter (fun r => r.id == s)).length := by
  induction rules with
  | nil => rfl
  | cons r rest ih =>
    by_cases h : r.id == s
    · simp only [List.map_cons, List.filter_cons]
      have : (applyRuleDefaults r).id = r.id := rfl
      rw [this, h]
      simp [ih]
    · simp only [List.map_cons, List.filter_cons]
      have : (applyRuleDefaults r).id = r.id := rfl
      rw [this]
      simp only [h, Bool.false_eq_true, if_neg, ite_false]
      exact ih

/-- C9: if any worker of the input references a rule id that matches no
rule, or matches more than one rule, then `convert_input` raises
`ValueError` (returns an error) before any decision variable of the model
is created, so no partial model is produced. -/
theorem claim_C9 : ∀ input : AInput,
    (∃ e ∈ input.workers,
      (input.rules.filter (fun r => r.id == e.rules)).length ≠ 1) →
    (∃ msg, convertInput input = .error msg) ∧ modelOf input = none := by
  intro input h
  obtain ⟨e, he, hlen⟩ := h
  have hmem : convertWorker e ∈ input.workers.map convertWorker :=
    List.mem_map.mpr ⟨e, he, rfl⟩
  have hlen' : ((input.rules.map applyRuleDefaults).filter
      (fun r => r.id == (convertWorker e).rules)).length ≠ 1 := by
    have hr : (convertWorker e).rules = e.rules := rfl
    rw [hr, filter_rules_map_length]
    exact hlen
  obtain ⟨msg, herr⟩ := rulesPerWorker_error (input.rules.map applyRuleDefaults)
    (input.workers.map convertWorker) ⟨convertWorker e, hmem, hlen'⟩
  constructor
  · exact ⟨msg, by simp only [convertInput]; rw [herr]⟩
  · simp only [modelOf, convertInput]
    rw [herr]

/-- C9 witness: a single worker referencing rule id `r9` while the rule
list is empty makes `convertInput` fail and leaves no model. -/
theorem claim_C9_witness :
    (∃ msg, convertInput ⟨[⟨"w1", [], [], "r9", none⟩], [], []⟩ =
      .error msg) ∧
    modelOf ⟨[⟨"w1", [], [], "r9", none⟩], [], []⟩ = none :=
  claim_C9 ⟨[⟨"w1", [], [], "r9", none⟩], [], []⟩
    ⟨⟨"w1", [], [], "r9", none⟩, by simp, by decide⟩

lemma insertStrict_head (x : Int) (l : List Int) :
    (insertStrict x l).head? = some x ∨ (insertStrict x l).head? = l.head? := by
  cases l with
  | nil => left; rfl
  | cons y ys =>
    by_cases h1 : x < y
    · left; simp [insertStrict, h1]
    · by_cases h2 : x = y
      · right; simp [insertStrict, h1, h2]
      · right; simp [insertStrict, h1, h2]

lemma mem_insertStrict {x a : Int} {l : List Int} :
    a ∈ insertStrict x l ↔ a = x ∨ a ∈ l := by
  induction l with
  | nil => simp [insertStrict]
  | cons y ys ih =>
    by_cases h1 : x < y
    · simp [insertStrict, h1]
    · by_cases h2 : x = y
      · simp only [insertStrict, if_neg h1, if_pos h2, List.mem_cons]
        subst h2
        tauto
      · simp only [insertStrict, if_neg h1, if_neg h2, List.mem_cons, ih]
        tauto

lemma chain'_insertStrict {x : Int} {l : List Int}
    (h : List.Chain' (· < ·) l) : List.Chain' (· < ·) (insertStrict x l) := by
  induction l with
  | nil => simp [insertStrict]
  | cons y ys ih =>
    rw [List.chain'_cons'] at h
    by_cases h1 : x < y
    · simp only [insertStrict, if_pos h1]
      rw [List.chain'_cons]
      exact ⟨h1, List.chain'_cons'.mpr h⟩
    · by_cases h2 : x = y
      · subst h2
        simp only [insertStrict, if_neg h1, if_pos rfl]
        exact List.chain'_cons'.mpr h
      · simp only [insertStrict, if_neg h1, if_neg h2]
        rw [List.chain'_cons']
        refine ⟨?_, ih h.2⟩
        intro z hz
        rcases insertStrict_head x ys with hh | hh
        · rw [hh] at hz
          simp only [Option.mem_def, Option.some.injEq] at hz
          subst hz
          omega
        · rw [hh] at hz
          exact h.1 z hz

lemma sortedDedup_chain' (l : List Int) :
    List.Chain' (· < ·) (sortedDedup l) := by
  induction l with
  | nil => simp [sortedDedup]
  | cons x xs ih => exact chain'_insertStrict ih

lemma mem_sortedDedup {l : List Int} {a : Int} :
    a ∈ sortedDedup l ↔ a ∈ l := by
  induction l with
  | nil => simp [sortedDedup]
  | cons x xs ih =>
    show a ∈ insertStrict x (sortedDedup xs) ↔ _
    rw [mem_insertStrict, ih, List.mem_cons]

lemma chain'_lt_head_le {h : Int} {t : List Int}
    (hc : List.Chain' (· < ·) (h :: t)) : ∀ x ∈ h :: t, h ≤ x := by
  intro x hx
  have hp := List.chain'_iff_pairwise.mp hc
  rcases List.mem_cons.mp hx with rfl | hx'
  · exact le_refl x
  · exact le_of_lt ((List.pairwise_cons.mp hp).1 x hx')

lemma chain'_lt_getD_mono {T : List Int} (h : List.Chain' (· < ·) T)
    {i j : Nat} (hij : i ≤ j) (hj : j < T.length) :
    T.getD i 0 ≤ T.getD j 0 := by
  rcases Nat.eq_or_lt_of_le hij with rfl | hlt
  · exact le_refl _
  · have hp := List.chain'_iff_pairwise.mp h
    rw [List.pairwise_iff_get] at hp
    have hi : i < T.length := lt_trans hlt hj
    have := hp ⟨i, hi⟩ ⟨j, hj⟩ hlt
    rw [List.getD_eq_get T 0 hi, List.getD_eq_get T 0 hj]
    exact le_of_lt this

lemma findGap : ∀ (T : List Int), List.Chain' (· < ·) T →
    ∀ (x a b : Int), a ∈ T → b ∈ T → a ≤ x → x < b →
    ∃ i, i + 1 < T.length ∧ T.getD i 0 ≤ x ∧ x < T.getD (i + 1) 0 ∧
      (∀ t ∈ T, t ≤ x → t ≤ T.getD i 0) ∧
      (∀ t ∈ T, x < t → T.getD (i + 1) 0 ≤ t) := by
  intro T
  induction T with
  | nil =>
    intro _ x a b ha _ _ _
    exact absurd ha (List.not_mem_nil a)
  | cons t1 rest ih =>
    intro hc x a b ha hb hax hxb
    cases rest with
    | nil =>
      rw [List.mem_singleton] at ha hb
      subst ha
      subst hb
      omega
    | cons t2 rest2 =>
      have h12 : t1 < t2 := (List.chain'_cons.mp hc).1
      have hctail : List.Chain' (· < ·) (t2 :: rest2) := (List.chain'_cons.mp hc).2
      by_cases hx2 : x < t2
      · -- the gap is between t1 and t2
        have ht1x : t1 ≤ x := by
          rcases List.mem_cons.mp ha with rfl | ha'
          · exact hax
          · have := chain'_lt_head_le hctail a ha'
            omega
        refine ⟨0, by simp, by simpa using ht1x, by simpa using hx2, ?_, ?_⟩
        · intro t ht htx
          rcases List.mem_cons.mp ht with rfl | ht'
          · simp
          · have := chain'_lt_head_le hctail t ht'
            simp only [List.getD_cons_zero]
            omega
        · intro t ht hxt
          rcases List.mem_cons.mp ht with rfl | ht'
          · omega
          · have := chain'_lt_head_le hctail t ht'
            simp only [List.getD_cons_succ, List.getD_cons_zero]
            omega
      · -- recurse into the tail
        have ht2x : t2 ≤ x := by omega
        have hb' : b ∈ t2 :: rest2 := by
          rcases List.mem_cons.mp hb with rfl | hb'
          · omega
          · exact hb'
        obtain ⟨i, hlen, hle, hlt, hmax, hmin⟩ :=
          ih hctail x t2 b (by simp) hb' ht2x hxb
        refine ⟨i + 1, by simpa using Nat.succ_lt_succ hlen,
          by simpa using hle, by simpa using hlt, ?_, ?_⟩
        · intro t ht htx
          rcases List.mem_cons.mp ht with rfl | ht'
          · have := hmax t2 (by simp) ht2x
            simp only [List.getD_cons_succ]
            omega
          · simp only [List.getD_cons_succ]
            exact hmax t ht' htx
        · intro t ht hxt
          rcases List.mem_cons.mp ht with rfl | ht'
          · omega
          · simp only [List.getD_cons_succ]
            exact hmin t ht' hxt

lemma mem_demandsFor {q : String} {ds : List Demand} {d : Demand} :
    d ∈ demandsFor q ds ↔ d ∈ ds ∧ d.qualification = q := by
  simp [demandsFor, List.mem_filter]

lemma mem_shiftsFor {q : String} {cs : List ConcreteShift}
    {s : ConcreteShift} :
    s ∈ shiftsFor q cs ↔ s ∈ cs ∧ s.qualification = q := by
  rw [shiftsFor, List.mem_filter]
  simp only [beq_iff_eq]
  constructor
  · rintro ⟨h1, h2⟩
    exact ⟨h1, h2.symm⟩
  · rintro ⟨h1, h2⟩
    exact ⟨h1, h2.symm⟩

lemma timesFor_chain' (q : String) (cs : List ConcreteShift)
    (ds : List Demand) : List.Chain' (· < ·) (timesFor q cs ds) :=
  sortedDedup_chain' _

lemma mem_timesFor_demand (q : String) (cs : List ConcreteShift)
    {ds : List Demand} {d : Demand} (hd : d ∈ demandsFor q ds) :
    d.start_time ∈ timesFor q cs ds ∧ d.end_time ∈ timesFor q cs ds := by
  constructor <;>
  · rw [timesFor, mem_sortedDedup, List.mem_append]
    left
    rw [List.mem_flatMap]
    exact ⟨d, hd, by simp⟩

lemma mem_periodsFor {q : String} {cs : List ConcreteShift} {ds : List Demand}
    {p : UniqueQualificationDemandPeriod} :
    p ∈ periodsFor q cs ds ↔
    ∃ i, i + 1 < (timesFor q cs ds).length ∧
      contributingDemands q ds ((timesFor q cs ds).getD i 0)
        ((timesFor q cs ds).getD (i + 1) 0) ≠ [] ∧
      p = ⟨(timesFor q cs ds).getD i 0, (timesFor q cs ds).getD (i + 1) 0, q,
        coveringShifts q cs ((timesFor q cs ds).getD i 0)
          ((timesFor q cs ds).getD (i + 1) 0),
        contributingDemands q ds ((timesFor q cs ds).getD i 0)
          ((timesFor q cs ds).getD (i + 1) 0)⟩ := by
  simp only [periodsFor, List.mem_filterMap, List.mem_range]
  constructor
  · rintro ⟨i, hi, hf⟩
    split_ifs at hf with he
    refine ⟨i, by omega, ?_, (Option.some.inj hf).symm⟩
    simpa [List.isEmpty_iff] using he
  · rintro ⟨i, hi, hne, rfl⟩
    refine ⟨i, by omega, ?_⟩
    rw [if_neg (by simpa [List.isEmpty_iff] using hne)]

lemma periodsFor_qual {q : String} {cs : List ConcreteShift}
    {ds : List Demand} {p : UniqueQualificationDemandPeriod}
    (hp : p ∈ periodsFor q cs ds) : p.qualification = q := by
  obtain ⟨i, _, _, rfl⟩ := mem_periodsFor.mp hp
  rfl

/-- C10: a concrete shift appears in the covering-shift list of a period of
qualification group `q` if and only if its qualification string equals `q`
exactly and its interval fully contains the period; the period itself
carries qualification `q`.  In particular an empty-string shift never
covers a non-empty group and vice versa. -/
theorem claim_C10 : ∀ (cs : List ConcreteShift) (ds : List Demand)
    (q : String) (p : UniqueQualificationDemandPeriod),
    p ∈ periodsFor q cs ds →
    p.qualification = q ∧
    ∀ s : ConcreteShift,
      (s ∈ p.covering_shifts ↔
        s ∈ cs ∧ s.qualification = q ∧
        s.start_time ≤ p.start_time ∧ s.end_time ≥ p.end_time) := by
  intro cs ds q p hp
  obtain ⟨i, hi, hne, rfl⟩ := mem_periodsFor.mp hp
  refine ⟨rfl, ?_⟩
  intro s
  show s ∈ coveringShifts q cs _ _ ↔ _
  rw [coveringShifts, List.mem_filter, mem_shiftsFor]
  simp only [Bool.and_eq_true, decide_eq_true_eq, ge_iff_le]
  tauto

/-- C4: for every qualification group `q`, the retained coverage periods of
that group are pairwise non-overlapping, each has a non-empty
contributing-demand list, the union of their half-open intervals equals the
union of the intervals of all demands with qualification `q`, and the
periods of the full decomposer output carrying qualification `q` are
exactly the group's periods. -/
theorem claim_C4 : ∀ (cs : List ConcreteShift) (ds : List Demand) (q : String),
    List.Pairwise (fun p1 p2 : UniqueQualificationDemandPeriod =>
      ∀ x : Int, ¬(p1.start_time ≤ x ∧ x < p1.end_time ∧
                   p2.start_time ≤ x ∧ x < p2.end_time))
      (periodsFor q cs ds) ∧
    (∀ p ∈ periodsFor q cs ds, p.demands ≠ []) ∧
    (∀ x : Int,
      (∃ p ∈ periodsFor q cs ds, p.start_time ≤ x ∧ x < p.end_time) ↔
      (∃ d ∈ ds, d.qualification = q ∧ d.start_time ≤ x ∧ x < d.end_time)) ∧
    (∀ p : UniqueQualificationDemandPeriod,
      (p ∈ getDemandCoveragePeriods cs ds ∧ p.qualification = q) ↔
      (q ∈ qualKeys ds ∧ p ∈ periodsFor q cs ds)) := by
  intro cs ds q
  have hchain := timesFor_chain' q cs ds
  refine ⟨?_, ?_, ?_, ?_⟩
  · simp only [periodsFor, List.pairwise_filterMap]
    apply List.Pairwise.imp_of_mem ?_ (List.pairwise_lt_range _)
    intro a b ha hb hab p1 hp1 p2 hp2
    rw [List.mem_range] at ha hb
    rw [Option.mem_def] at hp1 hp2
    split_ifs at hp1 hp2 with h1 h2
    have e1 := Option.some.inj hp1
    have e2 := Option.some.inj hp2
    subst e1
    subst e2
    intro x hx
    dsimp only at hx
    have hmono : (timesFor q cs ds).getD (a + 1) 0 ≤
        (timesFor q cs ds).getD b 0 :=
      chain'_lt_getD_mono hchain (by omega) (by omega)
    omega
  · intro p hp
    obtain ⟨i, hi, hne, rfl⟩ := mem_periodsFor.mp hp
    exact hne
  · intro x
    constructor
    · rintro ⟨p, hp, hs, he⟩
      obtain ⟨i, hi, hne, rfl⟩ := mem_periodsFor.mp hp
      obtain ⟨d, hd⟩ := List.exists_mem_of_ne_nil _ hne
      rw [contributingDemands, List.mem_filter] at hd
      obtain ⟨hd1, hd2⟩ := hd
      rw [mem_demandsFor] at hd1
      simp only [Bool.and_eq_true, decide_eq_true_eq, ge_iff_le] at hd2
      dsimp only at hs he
      exact ⟨d, hd1.1, hd1.2, by omega, by omega⟩
    · rintro ⟨d, hd, hq, hs, he⟩
      have hdf : d ∈ demandsFor q ds := mem_demandsFor.mpr ⟨hd, hq⟩
      obtain ⟨hds, hde⟩ := mem_timesFor_demand q cs hdf
      obtain ⟨i, hlen, hle, hlt, hmax, hmin⟩ :=
        findGap _ hchain x d.start_time d.end_time hds hde hs he
      have hdc : d ∈ contributingDemands q ds ((timesFor q cs ds).getD i 0)
          ((timesFor q cs ds).getD (i + 1) 0) := by
        rw [contributingDemands, List.mem_filter]
        refine ⟨hdf, ?_⟩
        simp only [Bool.and_eq_true, decide_eq_true_eq, ge_iff_le]
        exact ⟨hmax _ hds hs, hmin _ hde he⟩
      exact ⟨⟨(timesFor q cs ds).getD i 0, (timesFor q cs ds).getD (i + 1) 0,
        q, coveringShifts q cs ((timesFor q cs ds).getD i 0)
          ((timesFor q cs ds).getD (i + 1) 0),
        contributingDemands q ds ((timesFor q cs ds).getD i 0)
          ((timesFor q cs ds).getD (i + 1) 0)⟩,
        mem_periodsFor.mpr ⟨i, hlen, List.ne_nil_of_mem hdc, rfl⟩, hle, hlt⟩
  · intro p
    constructor
    · rintro ⟨hp, hq⟩
      rw [getDemandCoveragePeriods, List.mem_flatMap] at hp
      obtain ⟨q', hq', hpq⟩ := hp
      have hqq : q' = q := by rw [← periodsFor_qual hpq, hq]
      subst hqq
      exact ⟨hq', hpq⟩
    · rintro ⟨hqk, hp⟩
      refine ⟨?_, periodsFor_qual hp⟩
      rw [getDemandCoveragePeriods, List.mem_flatMap]
      exact ⟨q, hqk, hp⟩

/-- C10 witness: one empty-qualification demand `[0, 10)` and one
empty-qualification shift `[0, 10)` produce the single period `[0, 10)`,
for which `claim_C10` instantiates to: the shift covers the period. -/
theorem claim_C10_witness :
    (⟨0, 10, "", [⟨"t_x", "t", "x", 0, 10, 0, -1, 5, ""⟩], [⟨0, 10, 1, ""⟩]⟩ :
      UniqueQualificationDemandPeriod).qualification = "" ∧
    ((⟨"t_x", "t", "x", 0, 10, 0, -1, 5, ""⟩ : ConcreteShift) ∈
      (⟨0, 10, "", [⟨"t_x", "t", "x", 0, 10, 0, -1, 5, ""⟩],
        [⟨0, 10, 1, ""⟩]⟩ :
        UniqueQualificationDemandPeriod).covering_shifts ↔
      (⟨"t_x", "t", "x", 0, 10, 0, -1, 5, ""⟩ : ConcreteShift) ∈
        [(⟨"t_x", "t", "x", 0, 10, 0, -1, 5, ""⟩ : ConcreteShift)] ∧
      (⟨"t_x", "t", "x", 0, 10, 0, -1, 5, ""⟩ :
        ConcreteShift).qualification = "" ∧
      (⟨"t_x", "t", "x", 0, 10, 0, -1, 5, ""⟩ :
        ConcreteShift).start_time ≤
        (⟨0, 10, "", [⟨"t_x", "t", "x", 0, 10, 0, -1, 5, ""⟩],
          [⟨0, 10, 1, ""⟩]⟩ :
          UniqueQualificationDemandPeriod).start_time ∧
      (⟨"t_x", "t", "x", 0, 10, 0, -1, 5, ""⟩ :
        ConcreteShift).end_time ≥
        (⟨0, 10, "", [⟨"t_x", "t", "x", 0, 10, 0, -1, 5, ""⟩],
          [⟨0, 10, 1, ""⟩]⟩ :
          UniqueQualificationDemandPeriod).end_time) := by
  have h := claim_C10 [⟨"t_x", "t", "x", 0, 10, 0, -1, 5, ""⟩]
    [⟨0, 10, 1, ""⟩] ""
    ⟨0, 10, "", [⟨"t_x", "t", "x", 0, 10, 0, -1, 5, ""⟩], [⟨0, 10, 1, ""⟩]⟩
    (by decide)
  exact ⟨h.1, h.2 ⟨"t_x", "t", "x", 0, 10, 0, -1, 5, ""⟩⟩

/-- C4 witness: on the same one-demand one-shift instance, `claim_C4`
instantiates to: the single retained period has a non-empty
contributing-demand list. -/
theorem claim_C4_witness :
    (⟨0, 10, "", [⟨"t_x", "t", "x", 0, 10, 0, -1, 5, ""⟩], [⟨0, 10, 1, ""⟩]⟩ :
      UniqueQualificationDemandPeriod).demands ≠ [] :=
  (claim_C4 [⟨"t_x", "t", "x", 0, 10, 0, -1, 5, ""⟩] [⟨0, 10, 1, ""⟩] "").2.1
    ⟨0, 10, "", [⟨"t_x", "t", "x", 0, 10, 0, -1, 5, ""⟩], [⟨0, 10, 1, ""⟩]⟩
    (by decide)

/-- C1 witness: for two overlapping shifts and zero rest, the pair (0, 1)
is emitted, and `claim_C1` instantiates to: the reversed pair (1, 0) is
not. -/
theorem claim_C1_witness :
    (1, 0) ∉ restPairs [⟨"A", 0, 10, 1, none⟩, ⟨"B", 5, 15, 1, none⟩] 0 :=
  (claim_C1 [⟨"A", 0, 10, 1, none⟩, ⟨"B", 5, 15, 1, none⟩] 0).2.2.1 0 1
    (by decide)

lemma underscore_split : ∀ (l1 : List Char) {l2 a b : List Char},
    '_' ∉ l1 → '_' ∉ l2 → l1 ++ '_' :: a = l2 ++ '_' :: b →
    l1 = l2 ∧ a = b := by
  intro l1
  induction l1 with
  | nil =>
    intro l2 a b _ h2 h
    cases l2 with
    | nil =>
      refine ⟨rfl, ?_⟩
      simpa using h
    | cons c l2' =>
      simp only [List.nil_append, List.cons_append] at h
      injection h with hc _
      exact absurd (hc ▸ List.mem_cons_self c l2') h2
  | cons c l1' ih =>
    intro l2 a b h1 h2 h
    cases l2 with
    | nil =>
      simp only [List.cons_append, List.nil_append] at h
      injection h with hc _
      exact absurd (hc ▸ List.mem_cons_self c l1') h1
    | cons c2 l2' =>
      simp only [List.cons_append] at h
      injection h with hc htl
      subst hc
      obtain ⟨e1, e2⟩ := ih (fun hm => h1 (List.mem_cons_of_mem _ hm))
        (fun hm => h2 (List.mem_cons_of_mem _ hm)) htl
      exact ⟨by rw [e1], e2⟩

lemma concreteId_inj {s1 s2 a b : String}
    (h1 : '_' ∉ s1.data) (h2 : '_' ∉ s2.data)
    (h : s1 ++ "_" ++ a = s2 ++ "_" ++ b) : s1 = s2 ∧ a = b := by
  have hd := congrArg String.data h
  simp only [String.data_append] at hd
  have hd' : s1.data ++ '_' :: a.data = s2.data ++ '_' :: b.data := by
    simpa using hd
  obtain ⟨e1, e2⟩ := underscore_split s1.data h1 h2 hd'
  exact ⟨String.ext e1, String.ext e2⟩

lemma append_left_cancel_str {s a b : String} (h : s ++ a = s ++ b) :
    a = b := by
  have hd := congrArg String.data h
  simp only [String.data_append] at hd
  exact String.ext (List.append_cancel_left hd)

/-- C8 counterexample: two shift templates sharing id `t`, each with one
time slot `x`, expand to two concrete shifts that BOTH get id `t_x`, so
the produced ids are not unique although the count is the sum of the
time-slot counts. -/
theorem claim_C8_counterexample :
    (getConcreteShifts
      [⟨"t", [⟨"x", 0, 10, none, none, none⟩], none, none, 5, none⟩,
       ⟨"t", [⟨"x", 0, 10, none, none, none⟩], none, none, 5, none⟩]).length
      = 2 ∧
    ¬ ((getConcreteShifts
      [⟨"t", [⟨"x", 0, 10, none, none, none⟩], none, none, 5, none⟩,
       ⟨"t", [⟨"x", 0, 10, none, none, none⟩], none, none, 5, none⟩]).map
        (fun c => c.id)).Nodup := by
  constructor <;> decide

/-- C8 amended: the expander always produces exactly
sum-over-templates-of-time-slot-counts concrete shifts; the produced ids
are unique PROVIDED the template ids are pairwise distinct, each template's
time-slot ids are pairwise distinct, and no template id contains an
underscore (duplicate template ids — or underscore collisions such as
`a_b + c` versus `a + b_c` — can otherwise make two concrete ids
coincide). -/
theorem claim_C8_amended : ∀ shifts : List ShiftTemplate,
    (getConcreteShifts shifts).length =
      (shifts.map (fun sh => sh.times.length)).sum ∧
    ((shifts.map (fun sh => sh.id)).Nodup →
     (∀ sh ∈ shifts, (sh.times.map (fun t => t.id)).Nodup) →
     (∀ sh ∈ shifts, '_' ∉ sh.id.data) →
     ((getConcreteShifts shifts).map (fun c => c.id)).Nodup) := by
  intro shifts
  constructor
  · rw [getConcreteShifts, List.length_flatMap]
    congr 1
    apply List.map_congr_left
    intro sh _
    simp [Function.comp, List.length_map]
  · intro hids htimes hunder
    rw [getConcreteShifts, List.map_flatMap]
    rw [List.nodup_flatMap]
    constructor
    · intro sh hsh
      rw [List.map_map]
      have hcomp : ((fun c : ConcreteShift => c.id) ∘ fun time : TimeSlot =>
          ({ id := sh.id ++ "_" ++ time.id, shift_id := sh.id,
             time_id := time.id, start_time := time.start_time,
             end_time := time.end_time,
             min_workers := time.min_workers.getD (sh.min_workers.getD 0),
             max_workers := time.max_workers.getD (sh.max_workers.getD (-1)),
             cost := time.cost.getD sh.cost,
             qualification := sh.qualification.getD "" } : ConcreteShift)) =
          (fun tid => sh.id ++ "_" ++ tid) ∘ (fun t : TimeSlot => t.id) := rfl
      rw [hcomp, ← List.map_map]
      apply List.Nodup.map_on ?_ (htimes sh hsh)
      intro x _ y _ hxy
      exact append_left_cancel_str hxy
    · have hne : List.Pairwise (fun a b : ShiftTemplate => a.id ≠ b.id)
          shifts := List.pairwise_map.mp hids
      apply List.Pairwise.imp_of_mem ?_ hne
      intro sh1 sh2 h1m h2m hneq
      intro x hx1 hx2
      simp only [List.map_map, List.mem_map] at hx1 hx2
      obtain ⟨t1, ht1, he1⟩ := hx1
      obtain ⟨t2, ht2, he2⟩ := hx2
      have e1 : sh1.id ++ "_" ++ t1.id = x := he1
      have e2 : sh2.id ++ "_" ++ t2.id = x := he2
      have hcat : sh1.id ++ "_" ++ t1.id = sh2.id ++ "_" ++ t2.id := by
        rw [e1, e2]
      exact hneq (concreteId_inj (hunder sh1 h1m) (hunder sh2 h2m) hcat).1

/-- C8 witness: two templates with distinct underscore-free ids `t1`, `t2`
and one slot `x` each satisfy the hypotheses of `claim_C8_amended`, whose
conclusion gives unique concrete-shift ids. -/
theorem claim_C8_witness :
    ((getConcreteShifts
      [⟨"t1", [⟨"x", 0, 10, none, none, none⟩], none, none, 5, none⟩,
       ⟨"t2", [⟨"x", 0, 10, none, none, none⟩], none, none, 5, none⟩]).map
        (fun c => c.id)).Nodup :=
  (claim_C8_amended
      [⟨"t1", [⟨"x", 0, 10, none, none, none⟩], none, none, 5, none⟩,
       ⟨"t2", [⟨"x", 0, 10, none, none, none⟩], none, none, 5, none⟩]).2
    (by decide) (by decide) (by decide)
